import Mathlib

/- Verification of the mpibind SLURM spank plugin (src/mpibind.c).

   Shallow embedding conventions: the C int32 quantities involved here are
   all non-negative and far below 2^31 overflow in every property considered,
   so they are modelled as Nat.  A C function that can fail (map_to_domains
   returning 1 with its output parameters untouched, get_gpustring returning
   NULL) is modelled as an Option-valued function. -/

/-! ## DomainPartitioner: map_to_domains (src/mpibind.c lines 457-482) -/

/-- Size of bucket i when np items are distributed over ndoms domains:
the tmp value of map_to_domains, i.e. np / ndoms + 1 for the first
np % ndoms domains and np / ndoms for the rest. -/
def bucketSize (np ndoms i : ℕ) : ℕ :=
  if i < np % ndoms then np / ndoms + 1 else np / ndoms

/-- Cumulative number of items handed out before bucket i
(the running cum_np of map_to_domains at the start of iteration i). -/
def bucketStart (np ndoms : ℕ) : ℕ → ℕ
  | 0 => 0
  | i + 1 => bucketStart np ndoms i + bucketSize np ndoms i

/-- Loop of map_to_domains: n domains remain, the current domain index is i
and cum is the cumulative item count so far.  Returns none when the loop
falls through (the C function returns 1). -/
def mapToDomainsAux (rank ave extra : ℕ) : ℕ → ℕ → ℕ → Option (ℕ × ℕ × ℕ)
  | 0, _, _ => none
  | n + 1, i, cum =>
    let tmp := if i < extra then ave + 1 else ave
    if rank < cum + tmp then some (i, tmp, (rank - cum) % tmp)
    else mapToDomainsAux rank ave extra n (i + 1) (cum + tmp)

/-- map_to_domains from src/mpibind.c: maps item `rank` out of `np` items onto
one of `ndoms` domains.  some (mapi, np_in_dom, id_in_dom) models the C
function returning 0 after writing its three output parameters; none models
the C function returning 1 with the output parameters untouched. -/
def map_to_domains (rank np ndoms : ℕ) : Option (ℕ × ℕ × ℕ) :=
  mapToDomainsAux rank (np / ndoms) (np % ndoms) ndoms 0 0

lemma bucketStart_succ (np ndoms i : ℕ) :
    bucketStart np ndoms (i + 1) = bucketStart np ndoms i + bucketSize np ndoms i := rfl

lemma bucketStart_closed (np ndoms : ℕ) :
    ∀ m, bucketStart np ndoms m = m * (np / ndoms) + min m (np % ndoms) := by
  intro m
  induction m with
  | zero => simp [bucketStart]
  | succ k ih =>
    rw [bucketStart_succ, ih]
    simp only [bucketSize, Nat.succ_mul]
    rcases Nat.lt_or_ge k (np % ndoms) with h | h
    · rw [if_pos h, min_eq_left (Nat.le_of_lt h), min_eq_left h]
      simp only [Nat.succ_eq_add_one]
      ring
    · rw [if_neg (Nat.not_lt.mpr h), min_eq_right h,
        min_eq_right (Nat.le_succ_of_le h)]
      ring

lemma bucketStart_mono (np ndoms : ℕ) : ∀ {i j : ℕ}, i ≤ j →
    bucketStart np ndoms i ≤ bucketStart np ndoms j := by
  intro i j
  induction j with
  | zero =>
    intro h
    have hi : i = 0 := Nat.le_zero.mp h
    rw [hi]
  | succ k ih =>
    intro h
    rcases Nat.lt_or_ge i (k + 1) with h2 | h2
    · exact le_trans (ih (Nat.lt_succ_iff.mp h2))
        (by rw [bucketStart_succ]; exact Nat.le_add_right _ _)
    · have hik : i = k + 1 := le_antisymm h h2
      rw [hik]

lemma bucketStart_total (np ndoms : ℕ) (h : 0 < ndoms) :
    bucketStart np ndoms ndoms = np := by
  rw [bucketStart_closed, min_eq_right (Nat.le_of_lt (Nat.mod_lt np h))]
  exact Nat.div_add_mod np ndoms

lemma mapToDomainsAux_some (np ndoms rank : ℕ) (hr : rank < np) (hnd : 0 < ndoms) :
    ∀ n, ∀ i, i + n = ndoms → bucketStart np ndoms i ≤ rank →
    ∃ d, i ≤ d ∧ d < ndoms ∧ bucketStart np ndoms d ≤ rank ∧
      rank < bucketStart np ndoms d + bucketSize np ndoms d ∧
      mapToDomainsAux rank (np / ndoms) (np % ndoms) n i (bucketStart np ndoms i) =
        some (d, bucketSize np ndoms d,
          (rank - bucketStart np ndoms d) % bucketSize np ndoms d) := by
  intro n
  induction n with
  | zero =>
    intro i hi hle
    exfalso
    have hieq : i = ndoms := by omega
    rw [hieq, bucketStart_total np ndoms hnd] at hle
    omega
  | succ k ih =>
    intro i hi hle
    have hunf : mapToDomainsAux rank (np / ndoms) (np % ndoms) (k + 1) i
        (bucketStart np ndoms i) =
        (if rank < bucketStart np ndoms i + bucketSize np ndoms i then
          some (i, bucketSize np ndoms i,
            (rank - bucketStart np ndoms i) % bucketSize np ndoms i)
        else mapToDomainsAux rank (np / ndoms) (np % ndoms) k (i + 1)
          (bucketStart np ndoms i + bucketSize np ndoms i)) := rfl
    by_cases hc : rank < bucketStart np ndoms i + bucketSize np ndoms i
    · refine ⟨i, le_refl i, by omega, hle, hc, ?_⟩
      rw [hunf, if_pos hc]
    · obtain ⟨d, hd1, hd2, hd3, hd4, hd5⟩ :=
        ih (i + 1) (by omega) (by rw [bucketStart_succ]; omega)
      refine ⟨d, by omega, hd2, hd3, hd4, ?_⟩
      rw [hunf, if_neg hc]
      exact hd5

lemma map_to_domains_spec (idx np ndoms : ℕ) (hnd : 0 < ndoms) (hidx : idx < np) :
    ∃ d, d < ndoms ∧ bucketStart np ndoms d ≤ idx ∧
      idx < bucketStart np ndoms d + bucketSize np ndoms d ∧
      map_to_domains idx np ndoms =
        some (d, bucketSize np ndoms d,
          (idx - bucketStart np ndoms d) % bucketSize np ndoms d) := by
  obtain ⟨d, _, h2, h3, h4, h5⟩ :=
    mapToDomainsAux_some np ndoms idx hidx hnd ndoms 0 (by omega) (Nat.zero_le idx)
  exact ⟨d, h2, h3, h4, h5⟩

lemma mapToDomainsAux_none (np ndoms rank : ℕ) (hr : np ≤ rank) (hnd : 0 < ndoms) :
    ∀ n, ∀ i, i + n = ndoms →
      mapToDomainsAux rank (np / ndoms) (np % ndoms) n i (bucketStart np ndoms i) =
        none := by
  intro n
  induction n with
  | zero => intro i hi; rfl
  | succ k ih =>
    intro i hi
    have hub : bucketStart np ndoms i + bucketSize np ndoms i ≤ np := by
      rw [← bucketStart_succ]
      calc bucketStart np ndoms (i + 1) ≤ bucketStart np ndoms ndoms :=
            bucketStart_mono np ndoms (by omega)
        _ = np := bucketStart_total np ndoms hnd
    have hunf : mapToDomainsAux rank (np / ndoms) (np % ndoms) (k + 1) i
        (bucketStart np ndoms i) =
        (if rank < bucketStart np ndoms i + bucketSize np ndoms i then
          some (i, bucketSize np ndoms i,
            (rank - bucketStart np ndoms i) % bucketSize np ndoms i)
        else mapToDomainsAux rank (np / ndoms) (np % ndoms) k (i + 1)
          (bucketStart np ndoms i + bucketSize np ndoms i)) := rfl
    rw [hunf, if_neg (by omega)]
    exact ih (i + 1) (by omega)

lemma sum_bucketSize (np ndoms : ℕ) :
    ∀ m, ∑ i ∈ Finset.range m, bucketSize np ndoms i = bucketStart np ndoms m := by
  intro m
  induction m with
  | zero => simp [bucketStart]
  | succ k ih => rw [Finset.sum_range_succ, ih, bucketStart_succ]

/-- C1: for 0 ≤ index < total and domainCount > 0, map_to_domains returns the
bucket whose cumulative range (the first remainder buckets of size base+1,
the rest of size base, consumed in order) contains index, together with that
bucket's size and (index - startOfDomain) mod sizeInDomain; in particular for
total=10, domainCount=3 the sizes are [4,3,3] and index 9 maps to domain 2
with position 2. -/
theorem mpibind_C1 (idx np ndoms : ℕ) (hdom : 0 < ndoms) (hidx : idx < np) :
    (∃ d, d < ndoms ∧ bucketStart np ndoms d ≤ idx ∧
      idx < bucketStart np ndoms d + bucketSize np ndoms d ∧
      (∀ d', bucketStart np ndoms d' ≤ idx →
        idx < bucketStart np ndoms d' + bucketSize np ndoms d' → d' = d) ∧
      map_to_domains idx np ndoms =
        some (d, bucketSize np ndoms d,
          (idx - bucketStart np ndoms d) % bucketSize np ndoms d)) ∧
    (bucketSize 10 3 0 = 4 ∧ bucketSize 10 3 1 = 3 ∧ bucketSize 10 3 2 = 3 ∧
      map_to_domains 9 10 3 = some (2, 3, 2)) := by
  constructor
  · obtain ⟨d, hd, h1, h2, h3⟩ := map_to_domains_spec idx np ndoms hdom hidx
    refine ⟨d, hd, h1, h2, ?_, h3⟩
    intro d' h1' h2'
    by_contra hne
    rcases Nat.lt_or_ge d' d with hlt | hge
    · have hm : bucketStart np ndoms (d' + 1) ≤ bucketStart np ndoms d :=
        bucketStart_mono np ndoms hlt
      rw [bucketStart_succ] at hm
      omega
    · have hlt2 : d < d' := by omega
      have hm : bucketStart np ndoms (d + 1) ≤ bucketStart np ndoms d' :=
        bucketStart_mono np ndoms hlt2
      rw [bucketStart_succ] at hm
      omega
  · exact ⟨by decide, by decide, by decide, by decide⟩

/-- Witness for C1 at index 9, total 10, domainCount 3. -/
theorem mpibind_C1_witness :
    (∃ d, d < 3 ∧ bucketStart 10 3 d ≤ 9 ∧
      9 < bucketStart 10 3 d + bucketSize 10 3 d ∧
      (∀ d', bucketStart 10 3 d' ≤ 9 →
        9 < bucketStart 10 3 d' + bucketSize 10 3 d' → d' = d) ∧
      map_to_domains 9 10 3 =
        some (d, bucketSize 10 3 d, (9 - bucketStart 10 3 d) % bucketSize 10 3 d)) ∧
    (bucketSize 10 3 0 = 4 ∧ bucketSize 10 3 1 = 3 ∧ bucketSize 10 3 2 = 3 ∧
      map_to_domains 9 10 3 = some (2, 3, 2)) :=
  mpibind_C1 9 10 3 (by decide) (by decide)

/-- C2: for all total and domainCount > 0 the bucket sizes of the partitioner
sum to total, no two sizes differ by more than 1, and the sizeInDomain value
returned by map_to_domains for any valid index is that bucket size. -/
theorem mpibind_C2 (np ndoms : ℕ) (hdom : 0 < ndoms) :
    (∑ i ∈ Finset.range ndoms, bucketSize np ndoms i) = np ∧
    (∀ i, i < ndoms → ∀ j, j < ndoms →
      bucketSize np ndoms i ≤ bucketSize np ndoms j + 1) ∧
    (∀ idx, idx < np → ∀ d s p,
      map_to_domains idx np ndoms = some (d, s, p) → s = bucketSize np ndoms d) := by
  refine ⟨?_, ?_, ?_⟩
  · rw [sum_bucketSize, bucketStart_total np ndoms hdom]
  · intro i _ j _
    simp only [bucketSize]
    split <;> split <;> omega
  · intro idx hidx d s p heq
    obtain ⟨d₀, _, _, _, h3⟩ := map_to_domains_spec idx np ndoms hdom hidx
    rw [h3] at heq
    simp only [Option.some.injEq, Prod.mk.injEq] at heq
    obtain ⟨hd, hs, _⟩ := heq
    rw [← hs, hd]

/-- Witness for C2 at total 10, domainCount 3. -/
theorem mpibind_C2_witness :
    (∑ i ∈ Finset.range 3, bucketSize 10 3 i) = 10 ∧
    (∀ i, i < 3 → ∀ j, j < 3 → bucketSize 10 3 i ≤ bucketSize 10 3 j + 1) ∧
    (∀ idx, idx < 10 → ∀ d s p,
      map_to_domains idx 10 3 = some (d, s, p) → s = bucketSize 10 3 d) :=
  mpibind_C2 10 3 (by decide)

/-- C8: for domainCount > 0 the partitioner fails (returns none, i.e. the C
return value 1 with the output parameters untouched) exactly when
index ≥ total, and on success the returned position satisfies
0 ≤ positionInDomain < sizeInDomain. -/
theorem mpibind_C8 (idx np ndoms : ℕ) (hdom : 0 < ndoms) :
    (map_to_domains idx np ndoms = none ↔ np ≤ idx) ∧
    (∀ d s p, map_to_domains idx np ndoms = some (d, s, p) → p < s) := by
  constructor
  · constructor
    · intro hnone
      by_contra h
      obtain ⟨d, _, _, _, h3⟩ := map_to_domains_spec idx np ndoms hdom (by omega)
      rw [h3] at hnone
      exact Option.noConfusion hnone
    · intro h
      exact mapToDomainsAux_none np ndoms idx h hdom ndoms 0 (by omega)
  · intro d s p heq
    rcases Nat.lt_or_ge idx np with hlt | hge
    · obtain ⟨d₀, _, h1, h2, h3⟩ := map_to_domains_spec idx np ndoms hdom hlt
      rw [h3] at heq
      simp only [Option.some.injEq, Prod.mk.injEq] at heq
      obtain ⟨hd, hs, hp⟩ := heq
      rw [← hs, ← hp]
      exact Nat.mod_lt _ (by omega)
    · have h0 : map_to_domains idx np ndoms = none :=
        mapToDomainsAux_none np ndoms idx hge hdom ndoms 0 (by omega)
      rw [h0] at heq
      exact Option.noConfusion heq

/-- Witness for C8 at index 2, total 7, domainCount 3. -/
theorem mpibind_C8_witness :
    (map_to_domains 2 7 3 = none ↔ 7 ≤ 2) ∧
    (∀ d s p, map_to_domains 2 7 3 = some (d, s, p) → p < s) :=
  mpibind_C8 2 7 3 (by decide)

/-! ## CpusetBuilder reduction: decimate_cpuset (lines 435-452) and the
singlify/decimate dispatch of slurm_spank_task_init (lines 943-946).
A cpuset is modelled as the ascending list of its set bit indices. -/

/-- Walk of decimate_cpuset from the first set bit: while the thread counter
is positive a bit is kept and the counter decremented, afterwards every
further bit is cleared. -/
def decimateGo : ℕ → List ℕ → List ℕ
  | _, [] => []
  | 0, _ :: rest => decimateGo 0 rest
  | t + 1, x :: rest => x :: decimateGo t rest

/-- decimate_cpuset: returns unchanged when the bit count is at most
num_threads, otherwise keeps the first num_threads set bits. -/
def decimate_cpuset (numThreads : ℕ) (l : List ℕ) : List ℕ :=
  if l.length ≤ numThreads then l else decimateGo numThreads l

/-- hwloc_bitmap_singlify (external hwloc collaborator): keeps a single
member of the set (its first set bit) and clears the rest. -/
def singlify : List ℕ → List ℕ
  | [] => []
  | x :: _ => [x]

/-- Reduction dispatch of slurm_spank_task_init: singlify when
num_threads == 1, decimate_cpuset otherwise. -/
def reduceCpuset (numThreads : ℕ) (l : List ℕ) : List ℕ :=
  if numThreads = 1 then singlify l else decimate_cpuset numThreads l

lemma decimateGo_eq_take : ∀ (t : ℕ) (l : List ℕ), decimateGo t l = l.take t := by
  intro t l
  induction l generalizing t with
  | nil => cases t <;> rfl
  | cons x rest ih =>
    cases t with
    | zero =>
      show decimateGo 0 rest = []
      rw [ih 0]
      rfl
    | succ k =>
      show x :: decimateGo k rest = x :: rest.take k
      rw [ih k]

lemma decimate_cpuset_eq_take (t : ℕ) (l : List ℕ) :
    decimate_cpuset t l = l.take t := by
  rw [decimate_cpuset]
  split
  · rw [List.take_of_length_le (by omega)]
  · exact decimateGo_eq_take t l

/-- C5: for a non-empty raw unit-set and threadsPerTask ≥ 1, the reduction
yields cardinality 1 when threadsPerTask == 1 (singlify), and otherwise
keeps exactly the first threadsPerTask members in ascending order, for a
cardinality of min threadsPerTask rawCardinality. -/
theorem mpibind_C5 (t : ℕ) (l : List ℕ) (ht : 1 ≤ t) (hne : l ≠ []) :
    (t = 1 → (reduceCpuset t l).length = 1) ∧
    (t ≠ 1 → reduceCpuset t l = l.take t ∧
      (reduceCpuset t l).length = min t l.length) := by
  constructor
  · intro h1
    rw [reduceCpuset, if_pos h1]
    cases l with
    | nil => exact absurd rfl hne
    | cons x rest => rfl
  · intro hne1
    have hred : reduceCpuset t l = l.take t := by
      rw [reduceCpuset, if_neg hne1]
      exact decimate_cpuset_eq_take t l
    refine ⟨hred, ?_⟩
    rw [hred, List.length_take]

/-- Witness for C5 at threadsPerTask 3 and raw set [1,2,4,8]. -/
theorem mpibind_C5_witness :
    (3 = 1 → (reduceCpuset 3 [1, 2, 4, 8]).length = 1) ∧
    (3 ≠ 1 → reduceCpuset 3 [1, 2, 4, 8] = [1, 2, 4, 8].take 3 ∧
      (reduceCpuset 3 [1, 2, 4, 8]).length = min 3 [1, 2, 4, 8].length) :=
  mpibind_C5 3 [1, 2, 4, 8] (by decide) (by decide)

/-! ## BindingExecutor environment: the OMP_NUM_THREADS export of
slurm_spank_task_init (lines 896-909) over the num_threads value read by
get_remote_env (lines 322-334).  The job environment is modelled as an
association list; spank_setenv with overwrite = 0 does not replace an
existing value. -/

/-- strtol on a decimal environment value (base 10, non-negative values as
they occur here): value of the leading digit run, 0 when there is none. -/
def strtolNat (s : String) : ℕ := ((s.takeWhile Char.isDigit).toNat?).getD 0

/-- spank_setenv: sets k to v; when k is already present it is replaced only
if overwrite is true. -/
def spank_setenv (env : List (String × String)) (k v : String)
    (overwrite : Bool) : List (String × String) :=
  match env.lookup k with
  | some _ =>
    if overwrite then (k, v) :: env.filter (fun p => !(p.1 == k)) else env
  | none => (k, v) :: env

/-- OMP_NUM_THREADS handling: num_threads is the strtol of the entry value
(0 when unset, mirroring get_remote_env); when it is 0 the plugin computes
num_cores / local_size, raises 0 to 1, and calls spank_setenv with
overwrite 0. -/
def ompEnvStep (env : List (String × String)) (numCores localSize : ℕ) :
    List (String × String) :=
  let numThreads :=
    match env.lookup "OMP_NUM_THREADS" with
    | some v => strtolNat v
    | none => 0
  if numThreads = 0 then
    let nt := if numCores / localSize = 0 then 1 else numCores / localSize
    spank_setenv env "OMP_NUM_THREADS" (toString nt) false
  else env

/-- C9: when OMP_NUM_THREADS is unset on entry the binding step exports it as
max(1, totalCoresOnNode / localTaskCount); when it was set on entry the
environment is left unchanged; Scenario D: unset, 16 cores, 4 local tasks
gives an exported value of 4. -/
theorem mpibind_C9 (env : List (String × String)) (numCores localSize : ℕ) :
    (env.lookup "OMP_NUM_THREADS" = none →
      (ompEnvStep env numCores localSize).lookup "OMP_NUM_THREADS" =
        some (toString (max 1 (numCores / localSize)))) ∧
    (env.lookup "OMP_NUM_THREADS" ≠ none →
      ompEnvStep env numCores localSize = env) ∧
    (ompEnvStep [] 16 4).lookup "OMP_NUM_THREADS" = some "4" := by
  refine ⟨?_, ?_, by decide⟩
  · intro hnone
    have hmax : (if numCores / localSize = 0 then 1 else numCores / localSize) =
        max 1 (numCores / localSize) := by
      rcases Nat.eq_zero_or_pos (numCores / localSize) with h | h
      · rw [if_pos h, h]
        exact (max_eq_left (Nat.zero_le 1)).symm
      · rw [if_neg (by omega), max_eq_right h]
    simp [ompEnvStep, hnone, hmax, spank_setenv, List.lookup]
  · intro hsome
    rw [ompEnvStep]
    obtain ⟨v, hv⟩ := Option.ne_none_iff_exists'.mp hsome
    simp only [hv]
    split
    · rw [spank_setenv, hv]
      rfl
    · rfl

/-- Witness for C9: Scenario D through the unset branch of the theorem. -/
theorem mpibind_C9_witness :
    (ompEnvStep [] 16 4).lookup "OMP_NUM_THREADS" =
      some (toString (max 1 (16 / 4))) :=
  (mpibind_C9 [] 16 4).1 rfl

/-! ## Remote verbosity: get_remote_env (lines 284-345) together with the
verbose effects of parse_option / parse_user_option (lines 118-245) in the
remote (task) context.  An MPIBIND option token is modelled by which branch
of parse_option it takes; the validity of a digit-led core range token
depends on the external online-processor count and is carried as a flag. -/

/-- One dot-separated MPIBIND token, by the parse_option branch it hits. -/
inductive Tok where
  | tokOn : Tok
  | tokOff : Tok
  | tokVv : Tok
  | tokV : Tok
  | tokVerbose : Tok
  | tokW : Tok
  | tokRange : Bool → Tok
  | tokHelp : Tok
  | tokInvalid : Tok
deriving DecidableEq

/-- Effect of parse_option on the verbose global in the remote context,
together with whether the call succeeded (rc == 0).  In the remote context
the help token falls through to the invalid branch (the help branch requires
!remote); a range token leaves verbose unchanged whether or not its bounds
check succeeds. -/
def parse_option_remote (v : ℕ) : Tok → ℕ × Bool
  | Tok.tokOn => (v, true)
  | Tok.tokOff => (v, true)
  | Tok.tokVv => (3, true)
  | Tok.tokV => (2, true)
  | Tok.tokVerbose => (2, true)
  | Tok.tokW => (1, true)
  | Tok.tokRange ok => (v, ok)
  | Tok.tokHelp => (v, false)
  | Tok.tokInvalid => (v, false)

/-- parse_user_option in the remote context: applies parse_option to each
token in order and stops at the first failing token (goto ret); verbose
changes made before the failure remain in effect. -/
def parse_user_option_remote (v : ℕ) : List Tok → ℕ
  | [] => v
  | t :: rest =>
    let r := parse_option_remote v t
    if r.2 then parse_user_option_remote r.1 rest else r.1

/-- Verbose value at the end of get_remote_env: verbose is zeroed first for
every nonzero global rank, then the MPIBIND environment variable (when
present) is parsed, which can set verbose again. -/
def get_remote_env_verbose (rank : ℕ) (mpibind : Option (List Tok)) (v : ℕ) : ℕ :=
  let v1 := if rank ≠ 0 then 0 else v
  match mpibind with
  | none => v1
  | some toks => parse_user_option_remote v1 toks

/-- True for the tokens whose parse_option branch assigns verbose. -/
def isVerbosityTok : Tok → Bool
  | Tok.tokVv => true
  | Tok.tokV => true
  | Tok.tokVerbose => true
  | Tok.tokW => true
  | _ => false

lemma parse_user_option_remote_no_verbosity :
    ∀ (toks : List Tok) (v : ℕ), (∀ t ∈ toks, isVerbosityTok t = false) →
      parse_user_option_remote v toks = v := by
  intro toks
  induction toks with
  | nil => intro v _; rfl
  | cons t rest ih =>
    intro v hno
    have ht : isVerbosityTok t = false := hno t (List.mem_cons_self t rest)
    have hrest : ∀ t' ∈ rest, isVerbosityTok t' = false :=
      fun t' ht' => hno t' (List.mem_cons_of_mem t ht')
    cases t with
    | tokOn => exact ih v hrest
    | tokOff => exact ih v hrest
    | tokVv => exact absurd ht (by decide)
    | tokV => exact absurd ht (by decide)
    | tokVerbose => exact absurd ht (by decide)
    | tokW => exact absurd ht (by decide)
    | tokRange ok =>
      cases ok with
      | true => exact ih v hrest
      | false => rfl
    | tokHelp => rfl
    | tokInvalid => rfl

/-- C10 counterexample: a task with global rank 1 and MPIBIND=vv ends
get_remote_env with verbosity 3, not 0, so a nonzero-rank task can emit
output during binding. -/
theorem mpibind_C10_counterexample :
    get_remote_env_verbose 1 (some [Tok.tokVv]) 2 = 3 ∧ (3 : ℕ) ≠ 0 :=
  ⟨rfl, by decide⟩

/-- C10 amended: for a nonzero global rank, get_remote_env zeroes verbosity
before parsing MPIBIND, so the final verbosity is 0 whenever MPIBIND is
absent or its parsed prefix contains no verbosity token; but a verbosity
token inside MPIBIND (w, v, verbose, vv) is applied afterwards and
re-enables output for any rank, e.g. MPIBIND=vv yields verbosity 3. -/
theorem mpibind_C10_amended (rank v : ℕ) (toks : List Tok) (hrank : rank ≠ 0) :
    get_remote_env_verbose rank none v = 0 ∧
    ((∀ t ∈ toks, isVerbosityTok t = false) →
      get_remote_env_verbose rank (some toks) v = 0) ∧
    get_remote_env_verbose rank (some [Tok.tokVv]) v = 3 := by
  have hz : (if rank ≠ 0 then 0 else v) = 0 := if_pos hrank
  refine ⟨?_, ?_, ?_⟩
  · rw [get_remote_env_verbose]
    exact hz
  · intro hno
    rw [get_remote_env_verbose]
    rw [hz]
    exact parse_user_option_remote_no_verbosity toks 0 hno
  · rw [get_remote_env_verbose]
    rw [hz]
    rfl

/-- Witness for C10 amended at rank 1, initial verbosity 2 and
MPIBIND=on.0-3 (a non-verbosity token list). -/
theorem mpibind_C10_amended_witness :
    get_remote_env_verbose 1 none 2 = 0 ∧
    ((∀ t ∈ [Tok.tokOn, Tok.tokRange true], isVerbosityTok t = false) →
      get_remote_env_verbose 1 (some [Tok.tokOn, Tok.tokRange true]) 2 = 0) ∧
    get_remote_env_verbose 1 (some [Tok.tokVv]) 2 = 3 :=
  mpibind_C10_amended 1 2 [Tok.tokOn, Tok.tokRange true] (by decide)

/-! ## CpusetBuilder slice: the cpuset union loop of slurm_spank_task_init
(lines 886, 920-926).  num_pus_per_task is a C float (IEEE-754 binary32);
the embedding models the float values exactly as dyadic rationals
n / 2^k, written as pairs (n, k) of naturals (every value in this code path
is non-negative: the inputs are uint32 counts and ranks), and each operation
rounds to nearest, ties to even, at 24 bits of precision as the hardware
does.  Overflow to infinity cannot occur here (quotients and products of
uint32-derived values stay far below 2^128) and is not modelled; local_size
is at least 1 whenever the plugin runs (SLURM's local task count).  The unit
pool cpusets[] is a list of unit-sets. -/

/-- Fuel-based floor of the base-2 logarithm (fuel at least n suffices). -/
def log2floor : ℕ → ℕ → ℕ
  | 0, _ => 0
  | fuel + 1, n => if n ≤ 1 then 0 else log2floor fuel (n / 2) + 1

/-- Floor of log2 for positive n. -/
def lg2 (n : ℕ) : ℕ := log2floor n n

/-- Ceiling of log2 for positive n. -/
def clg2 (n : ℕ) : ℕ := if n ≤ 1 then 0 else lg2 (n - 1) + 1

/-- Binary exponent of the positive rational p / q: the unique e with
2^e ≤ p/q < 2^(e+1). -/
def ratExp2 (p q : ℕ) : ℤ :=
  if q ≤ p then (lg2 (p / q) : ℤ)
  else -(clg2 ((q + p - 1) / p) : ℤ)

/-- Round num / den to the nearest integer, ties to even. -/
def rneDiv (num den : ℕ) : ℕ :=
  let f := num / den
  let r2 := 2 * (num % den)
  if r2 < den then f
  else if den < r2 then f + 1
  else if f % 2 = 0 then f else f + 1

/-- Round the positive rational p / q to the nearest binary32 value (ties to
even), returned as a dyadic pair (n, k) standing for n / 2^k.  Normal values
round at ulp 2^(e-23); values below 2^-126 are subnormal and round at
2^-149. -/
def roundPosRat32 (p q : ℕ) : ℕ × ℕ :=
  let e := ratExp2 p q
  let ulpExp := if e < -126 then (-149 : ℤ) else e - 23
  if 0 ≤ ulpExp then
    (rneDiv p (q * 2 ^ ulpExp.toNat) * 2 ^ ulpExp.toNat, 0)
  else
    (rneDiv (p * 2 ^ (-ulpExp).toNat) q, (-ulpExp).toNat)

/-- Round the non-negative rational p / q to binary32 (zero maps to zero). -/
def round32 (p q : ℕ) : ℕ × ℕ :=
  if p = 0 ∨ q = 0 then (0, 0) else roundPosRat32 p q

/-- Conversion of a uint32 value to float (the implicit conversions of
level_size, local_size and local_rank; exact below 2^24, rounded above). -/
def u32ToF32 (n : ℕ) : ℕ × ℕ := round32 n 1

/-- Binary32 division of two non-negative dyadic values. -/
def fdiv32 (a b : ℕ × ℕ) : ℕ × ℕ := round32 (a.1 * 2 ^ b.2) (b.1 * 2 ^ a.2)

/-- Binary32 multiplication of two non-negative dyadic values. -/
def fmul32 (a b : ℕ × ℕ) : ℕ × ℕ := round32 (a.1 * b.1) (2 ^ (a.2 + b.2))

/-- num_pus_per_task = (float) level_size / local_size (line 886): the
binary32 quotient of the converted operands. -/
def numPusPerTask (levelSize localSize : ℕ) : ℕ × ℕ :=
  fdiv32 (u32ToF32 levelSize) (u32ToF32 localSize)

/-- index = (int32_t)(local_rank * num_pus_per_task) (line 920): the binary32
product of the converted rank with the unclamped share, truncated toward
zero by the int32 cast (floor, on these non-negative values). -/
def sliceStart (levelSize localSize localRank : ℕ) : ℕ :=
  let prod := fmul32 (u32ToF32 localRank) (numPusPerTask levelSize localSize)
  prod.1 / 2 ^ prod.2

/-- Number of loop iterations (int32_t)num_pus_per_task taken after the
clamp of num_pus_per_task < 1.0 up to 1.0 (lines 921-924); the float
comparison and the truncating cast are exact on the dyadic value. -/
def sliceCount (levelSize localSize : ℕ) : ℕ :=
  let npt := numPusPerTask levelSize localSize
  if npt.1 < 2 ^ npt.2 then 1 else npt.1 / 2 ^ npt.2

/-- The raw cpuset: union over the loop
for (i = index; i < index + (int32_t)num_pus_per_task; i++) of cpusets[i]. -/
def rawCpuset (pool : List (Finset ℕ)) (localSize localRank : ℕ) : Finset ℕ :=
  (List.range (sliceCount pool.length localSize)).foldl
    (fun acc j =>
      acc ∪ pool.getD (sliceStart pool.length localSize localRank + j) ∅) ∅

/-- Share of the spec's formula for claim C4 (for refinement comparison with
rawCpuset; real-valued as the spec says): levelSize / localTaskCount clamped
up to 1.0 first. -/
def specShare (levelSize localSize : ℕ) : ℚ :=
  max ((levelSize : ℚ) / (localSize : ℚ)) 1

/-- Start index of the spec's formula for claim C4: floor(localRank * share)
of the clamped share. -/
def specStart (levelSize localSize localRank : ℕ) : ℕ :=
  Int.toNat ⌊(localRank : ℚ) * specShare levelSize localSize⌋

/-- Entry count of the spec's formula for claim C4: ceil(share). -/
def specCnt (levelSize localSize : ℕ) : ℕ :=
  Int.toNat ⌈specShare levelSize localSize⌉

/-- Definition following the spec's words of claim C4, for refinement
comparison with rawCpuset: the task's raw unit-set is the union of pool
entries [startIndex, startIndex + ceil(share)) of the clamped share, clipped
to the pool bounds. -/
def specRawCpuset (pool : List (Finset ℕ)) (localSize localRank : ℕ) : Finset ℕ :=
  (List.range (specCnt pool.length localSize)).foldl
    (fun acc j =>
      if specStart pool.length localSize localRank + j < pool.length then
        acc ∪ pool.getD (specStart pool.length localSize localRank + j) ∅
      else acc) ∅

lemma specShare_10_4 : specShare 10 4 = 5 / 2 := by
  rw [specShare, max_eq_left]
  · norm_num
  · norm_num

lemma specStart_10_4_0 : specStart 10 4 0 = 0 := by
  rw [specStart, specShare_10_4]
  norm_num

lemma ceil_five_halves : (⌈(5 / 2 : ℚ)⌉ : ℤ) = 3 := by
  rw [Int.ceil_eq_iff]
  constructor <;> norm_num

lemma specCnt_10_4 : specCnt 10 4 = 3 := by
  have h : specCnt 10 4 = Int.toNat 3 := by
    rw [specCnt, specShare_10_4, ceil_five_halves]
  exact h

/-- C4 counterexample: levelSize 10 (pool of 10 singleton unit-sets),
localTaskCount 4, localRank 0.  The binary32 share is exactly 2.5; the code
unions 2 = trunc(2.5) pool entries, the claim's formula
[start, start + ceil(share)) demands 3. -/
theorem mpibind_C4_counterexample :
    rawCpuset [{0}, {1}, {2}, {3}, {4}, {5}, {6}, {7}, {8}, {9}] 4 0 = {0, 1} ∧
    specRawCpuset [{0}, {1}, {2}, {3}, {4}, {5}, {6}, {7}, {8}, {9}] 4 0 =
      {0, 1, 2} ∧
    ({0, 1} : Finset ℕ) ≠ {0, 1, 2} := by
  have hlen : [({0} : Finset ℕ), {1}, {2}, {3}, {4}, {5}, {6}, {7}, {8}, {9}].length
      = 10 := rfl
  refine ⟨by decide, ?_, by decide⟩
  rw [specRawCpuset, hlen, specCnt_10_4]
  simp only [specStart_10_4_0]
  decide

/-- C4 amended: the loop count is the int32 truncation of the clamped
binary32 share, not its ceiling, and the start index is the int32 truncation
of localRank times the unclamped binary32 share; a universal characterization
in exact integer arithmetic is not asserted, because binary32 rounding moves
the truncated values at some inputs (three such inputs are recorded below:
the code's float math yields start index 12 for levelSize=26,
localTaskCount=22, localRank=11 where exact arithmetic gives 13; 0 for
levelSize=2, localTaskCount=82, localRank=41 where exact arithmetic gives 1
after clamping; and count 7 for levelSize=58720255, localTaskCount=8388608
where the exact quotient truncates to 6).  At the claim's Scenario B inputs
(levelSize=8, localTaskCount=4, share exactly 2.0) task 0's raw slice is
units[0,1] and task 3's raw slice is units[6,7]; at the counterexample input
(levelSize=10, localTaskCount=4, share exactly 2.5) task 0's raw slice is
units[0,1], i.e. trunc(2.5)=2 entries rather than ceil(2.5)=3. -/
theorem mpibind_C4_amended :
    sliceStart 8 4 0 = 0 ∧ sliceStart 8 4 3 = 6 ∧ sliceCount 8 4 = 2 ∧
    rawCpuset [{0}, {1}, {2}, {3}, {4}, {5}, {6}, {7}] 4 0 = {0, 1} ∧
    rawCpuset [{0}, {1}, {2}, {3}, {4}, {5}, {6}, {7}] 4 3 = {6, 7} ∧
    sliceStart 10 4 0 = 0 ∧ sliceCount 10 4 = 2 ∧
    rawCpuset [{0}, {1}, {2}, {3}, {4}, {5}, {6}, {7}, {8}, {9}] 4 0 = {0, 1} ∧
    sliceStart 26 22 11 = 12 ∧ sliceStart 2 82 41 = 0 ∧
    sliceCount 58720255 8388608 = 7 := by
  refine ⟨by decide, by decide, by decide, by decide, by decide, by decide,
    by decide, by decide, by decide, by decide, by decide⟩

/-! ## GpuAssigner reconciliation, case 2 of get_gpustring (lines 607-625):
more devices than tasks in the owning NUMA domain.  devs is
gpus_in_numa[mapped_numa] (ascending device ids), tasksInDomain is
mapped_np_in_numa and taskPos is mapped_id_in_numa. -/

/-- Comma-joined decimal device list: the asprintf accumulation of the inner
j loop, "%d" for j = 0 and "%s,%d" afterwards. -/
def commaJoin : List ℕ → String
  | [] => ""
  | x :: xs => xs.foldl (fun s n => s ++ "," ++ toString n) (toString x)

/-- Outer loop of get_gpustring case 2 over the remaining device indices,
carrying the str variable: each device index i is mapped to its owning task
by map_to_domains(i, devicesInDomain, tasksInDomain); a mapping failure
returns NULL at once; when the owner equals this task's position the inner j
loop rebuilds str as the comma-join of all device ids of the domain. -/
def gpustringCase2Go (devs : List ℕ) (tasksInDomain taskPos : ℕ) :
    List ℕ → Option String → Option String
  | [], str => str
  | i :: rest, str =>
    match map_to_domains i devs.length tasksInDomain with
    | none => none
    | some (t, _, _) =>
      gpustringCase2Go devs tasksInDomain taskPos rest
        (if taskPos = t then some (commaJoin devs) else str)

/-- get_gpustring case 2: the device string for a task at position taskPos
among tasksInDomain tasks of a domain owning the devices devs; none models
the C NULL (both the error return and a never-assigned str). -/
def gpustringCase2 (devs : List ℕ) (tasksInDomain taskPos : ℕ) : Option String :=
  gpustringCase2Go devs tasksInDomain taskPos (List.range devs.length) none

/-- Definition following the spec's words of claim C3: the device ids of the
domain whose owning task under the partitioner equals this task's position,
in ascending device order. -/
def specOwnedDevices (devs : List ℕ) (tasksInDomain taskPos : ℕ) : List ℕ :=
  ((List.range devs.length).filter (fun i =>
    match map_to_domains i devs.length tasksInDomain with
    | some (t, _, _) => taskPos == t
    | none => false)).map (fun i => devs.getD i 0)

/-- C3 evaluation at the failing input: with 3 devices [0,1,2] and 2 tasks in
the owning domain, the partitioner assigns devices 0,1 to task position 0 and
device 2 to task position 1, so the claim demands the strings "0,1" and "2";
get_gpustring case 2 instead emits the full domain list "0,1,2" for both task
positions, because its inner loop appends every device of the domain instead
of the matched device. -/
theorem mpibind_C3_eval :
    gpustringCase2 [0, 1, 2] 2 0 = some "0,1,2" ∧
    gpustringCase2 [0, 1, 2] 2 1 = some "0,1,2" ∧
    specOwnedDevices [0, 1, 2] 2 0 = [0, 1] ∧
    specOwnedDevices [0, 1, 2] 2 1 = [2] ∧
    commaJoin [0, 1] = "0,1" ∧
    (some "0,1,2" : Option String) ≠ some "0,1" :=
  ⟨rfl, rfl, rfl, rfl, rfl, by decide⟩

/-! ## GpuAssigner ownership and fallback: phases 1 and 2 of get_gpustring
(lines 527-584).  gpus_in_numa and gpus_in_group are lists of device-id
lists indexed by NUMA os_index resp. group os_index (the C arrays both have
numas entries); numagroup maps a NUMA os_index to its group os_index
(computed in slurm_spank_task_init lines 840-868); ancestors lists, for each
render GPU in osdev enumeration order, the os_index of its owning NUMA (or
machine) ancestor. -/

/-- List.getD at an index where the element was just set. -/
lemma getD_set_self {α : Type} (d : α) :
    ∀ (l : List α) (i : ℕ) (a : α), i < l.length → (l.set i a).getD i d = a := by
  intro l
  induction l with
  | nil =>
    intro i a h
    exact absurd h (by simp)
  | cons x xs ih =>
    intro i a h
    cases i with
    | zero => rfl
    | succ k =>
      show (xs.set k a).getD k d = a
      exact ih k a (by simpa using h)

/-- List.getD at an index other than the one set. -/
lemma getD_set_ne {α : Type} (d : α) :
    ∀ (l : List α) (i j : ℕ) (a : α), i ≠ j → (l.set i a).getD j d = l.getD j d := by
  intro l
  induction l with
  | nil => intro i j a _; rfl
  | cons x xs ih =>
    intro i j a h
    cases i with
    | zero =>
      cases j with
      | zero => exact absurd rfl h
      | succ m => rfl
    | succ k =>
      cases j with
      | zero => rfl
      | succ m =>
        show (xs.set k a).getD m d = xs.getD m d
        exact ih k m a (by omega)

/-- List.getD past the end of the list is the default. -/
lemma getD_default_of_le {α : Type} (d : α) :
    ∀ (l : List α) (j : ℕ), l.length ≤ j → l.getD j d = d := by
  intro l
  induction l with
  | nil => intro j _; rfl
  | cons x xs ih =>
    intro j h
    cases j with
    | zero => exact absurd h (by simp)
    | succ m => exact ih m (by simpa using h)

/-- Phase 1 loop of get_gpustring: the gpus counter renumbers render GPUs
0,1,2,... in enumeration order; each device id is appended to
gpus_in_numa[ancestor] and gpus_in_group[numagroup[ancestor]]. -/
def assignDirectGo (numagroup : List ℕ) :
    List ℕ → ℕ → List (List ℕ) × List (List ℕ) → List (List ℕ) × List (List ℕ)
  | [], _, st => st
  | a :: rest, dev, (nl, gl) =>
    assignDirectGo numagroup rest (dev + 1)
      (nl.set a (nl.getD a [] ++ [dev]),
        gl.set (numagroup.getD a 0) (gl.getD (numagroup.getD a 0) [] ++ [dev]))

/-- Phase 1 of get_gpustring: (gpus_in_numa, gpus_in_group) built from the
per-device ancestor NUMA os_index list. -/
def assignDirect (numas : ℕ) (numagroup ancestors : List ℕ) :
    List (List ℕ) × List (List ℕ) :=
  assignDirectGo numagroup ancestors 0
    (List.replicate numas [], List.replicate numas [])

/-- The k search of the fallback (while gpus_per_numa[k] == 0, k++): first
NUMA index whose current device list is non-empty. -/
def firstWithGpu (st : List (List ℕ)) : ℕ := st.findIdx (fun l => !l.isEmpty)

/-- One iteration of the fallback loop at domain i: a domain that already
has devices is left alone; a device-less domain takes the full group list
when it is non-empty, otherwise the list of the first domain currently
holding at least one device. -/
def fallbackStep (numagroup : List ℕ) (gs : List (List ℕ))
    (st : List (List ℕ)) (i : ℕ) : List (List ℕ) :=
  if (st.getD i []).isEmpty then
    if (gs.getD (numagroup.getD i 0) []).isEmpty then
      st.set i (st.getD (firstWithGpu st) [])
    else
      st.set i (gs.getD (numagroup.getD i 0) [])
  else st

/-- The fallback loop over the first m NUMA domains. -/
def fallbackUpTo (numagroup : List ℕ) (gs : List (List ℕ))
    (direct : List (List ℕ)) (m : ℕ) : List (List ℕ) :=
  (List.range m).foldl (fallbackStep numagroup gs) direct

/-- Phase 2 of get_gpustring: the fallback loop over all NUMA domains. -/
def fallback (numagroup : List ℕ) (gs : List (List ℕ))
    (direct : List (List ℕ)) : List (List ℕ) :=
  fallbackUpTo numagroup gs direct direct.length

lemma fallbackStep_length (numagroup : List ℕ) (gs st : List (List ℕ)) (i : ℕ) :
    (fallbackStep numagroup gs st i).length = st.length := by
  rw [fallbackStep]
  split
  · split <;> rw [List.length_set]
  · rfl

lemma fallbackUpTo_succ (numagroup : List ℕ) (gs direct : List (List ℕ)) (m : ℕ) :
    fallbackUpTo numagroup gs direct (m + 1) =
      fallbackStep numagroup gs (fallbackUpTo numagroup gs direct m) m := by
  rw [fallbackUpTo, fallbackUpTo, List.range_succ, List.foldl_append]
  rfl

lemma fallbackUpTo_length (numagroup : List ℕ) (gs direct : List (List ℕ)) :
    ∀ m, (fallbackUpTo numagroup gs direct m).length = direct.length := by
  intro m
  induction m with
  | zero => rfl
  | succ k ih => rw [fallbackUpTo_succ, fallbackStep_length, ih]

lemma fallbackStep_getD_ne (numagroup : List ℕ) (gs st : List (List ℕ))
    (i j : ℕ) (h : i ≠ j) :
    (fallbackStep numagroup gs st i).getD j [] = st.getD j [] := by
  rw [fallbackStep]
  split
  · split <;> exact getD_set_ne [] st i j _ h
  · rfl

lemma fallbackUpTo_untouched (numagroup : List ℕ) (gs direct : List (List ℕ)) :
    ∀ m j, m ≤ j →
      (fallbackUpTo numagroup gs direct m).getD j [] = direct.getD j [] := by
  intro m
  induction m with
  | zero => intro j _; rfl
  | succ k ih =>
    intro j h
    rw [fallbackUpTo_succ, fallbackStep_getD_ne numagroup gs _ k j (by omega),
      ih j (by omega)]

lemma fallbackUpTo_stable (numagroup : List ℕ) (gs direct : List (List ℕ))
    (j m : ℕ) (hj : j < m) : ∀ m', m ≤ m' →
      (fallbackUpTo numagroup gs direct m').getD j [] =
        (fallbackUpTo numagroup gs direct m).getD j [] := by
  intro m'
  induction m' with
  | zero => intro h; exact absurd hj (by omega)
  | succ k ih =>
    intro h
    rcases Nat.lt_or_ge k m with h2 | h2
    · have hm : m = k + 1 := by omega
      rw [hm]
    · rw [fallbackUpTo_succ, fallbackStep_getD_ne numagroup gs _ k j (by omega),
        ih h2]

lemma fallback_getD_eq_step (numagroup : List ℕ) (gs direct : List (List ℕ))
    (i : ℕ) (hi : i < direct.length) :
    (fallback numagroup gs direct).getD i [] =
      (fallbackStep numagroup gs (fallbackUpTo numagroup gs direct i) i).getD
        i [] := by
  rw [fallback,
    fallbackUpTo_stable numagroup gs direct i (i + 1) (by omega)
      direct.length (by omega),
    fallbackUpTo_succ]

lemma firstWithGpu_spec : ∀ (st : List (List ℕ)) (j : ℕ),
    st.getD j [] ≠ [] → st.getD (firstWithGpu st) [] ≠ [] := by
  intro st
  induction st with
  | nil =>
    intro j h
    exact absurd rfl h
  | cons x xs ih =>
    intro j h
    by_cases hx : x = []
    · subst hx
      have hf : firstWithGpu ([] :: xs) = firstWithGpu xs + 1 := by
        rw [firstWithGpu, firstWithGpu, List.findIdx_cons]
        rfl
      rw [hf]
      show xs.getD (firstWithGpu xs) [] ≠ []
      cases j with
      | zero => exact absurd rfl h
      | succ m => exact ih m h
    · have hxe : x.isEmpty = false := by
        cases x with
        | nil => exact absurd rfl hx
        | cons y ys => rfl
      have hf : firstWithGpu (x :: xs) = 0 := by
        rw [firstWithGpu, List.findIdx_cons, hxe]
        rfl
      rw [hf]
      exact hx

lemma fallback_foldl_keeps (numagroup : List ℕ) (gs : List (List ℕ)) :
    ∀ (idxs : List ℕ) (st : List (List ℕ)) (j : ℕ), st.getD j [] ≠ [] →
      (idxs.foldl (fallbackStep numagroup gs) st).getD j [] ≠ [] := by
  intro idxs
  induction idxs with
  | nil => intro st j h; exact h
  | cons i rest ih =>
    intro st j h
    rw [List.foldl_cons]
    apply ih
    by_cases hij : i = j
    · subst hij
      have hne : (st.getD i []).isEmpty = false := by
        rcases hval : st.getD i [] with _ | ⟨y, ys⟩
        · exact absurd hval h
        · rfl
      rw [fallbackStep, hne, if_neg Bool.false_ne_true]
      exact h
    · rw [fallbackStep]
      split
      · split
        · rw [getD_set_ne [] st i j _ hij]
          exact h
        · rw [getD_set_ne [] st i j _ hij]
          exact h
      · exact h

lemma fallback_foldl_covers (numagroup : List ℕ) (gs : List (List ℕ)) :
    ∀ (idxs : List ℕ) (st : List (List ℕ)),
      (∀ x ∈ idxs, x < st.length) → (∃ j, st.getD j [] ≠ []) →
      ∀ i ∈ idxs, (idxs.foldl (fallbackStep numagroup gs) st).getD i [] ≠ [] := by
  intro idxs
  induction idxs with
  | nil =>
    intro st _ _ i hi
    exact absurd hi (List.not_mem_nil i)
  | cons a rest ih =>
    intro st hbound hex i hi
    obtain ⟨j0, hj0⟩ := hex
    rw [List.foldl_cons]
    have ha : a < st.length := hbound a (List.mem_cons_self a rest)
    have hstep_a : (fallbackStep numagroup gs st a).getD a [] ≠ [] := by
      rw [fallbackStep]
      by_cases hemp : (st.getD a []).isEmpty = true
      · rw [if_pos hemp]
        by_cases hgs : (gs.getD (numagroup.getD a 0) []).isEmpty = true
        · rw [if_pos hgs, getD_set_self [] st a _ ha]
          exact firstWithGpu_spec st j0 hj0
        · rw [if_neg hgs, getD_set_self [] st a _ ha]
          intro he
          rw [he] at hgs
          exact hgs rfl
      · rw [if_neg hemp]
        intro he
        rw [he] at hemp
        exact hemp rfl
    have hlen : (fallbackStep numagroup gs st a).length = st.length :=
      fallbackStep_length numagroup gs st a
    rcases List.mem_cons.mp hi with rfl | hi2
    · exact fallback_foldl_keeps numagroup gs rest _ i hstep_a
    · exact ih (fallbackStep numagroup gs st a)
        (fun x hx => by rw [hlen]; exact hbound x (List.mem_cons_of_mem a hx))
        ⟨a, hstep_a⟩ i hi2

lemma assignDirectGo_fst_length (numagroup : List ℕ) :
    ∀ (ancestors : List ℕ) (dev : ℕ) (nl gl : List (List ℕ)),
      ((assignDirectGo numagroup ancestors dev (nl, gl)).1).length = nl.length := by
  intro ancestors
  induction ancestors with
  | nil => intro dev nl gl; rfl
  | cons a rest ih =>
    intro dev nl gl
    rw [assignDirectGo, ih, List.length_set]

lemma assignDirectGo_keeps (numagroup : List ℕ) :
    ∀ (ancestors : List ℕ) (dev : ℕ) (nl gl : List (List ℕ)) (a : ℕ),
      nl.getD a [] ≠ [] →
      ((assignDirectGo numagroup ancestors dev (nl, gl)).1).getD a [] ≠ [] := by
  intro ancestors
  induction ancestors with
  | nil => intro dev nl gl a h; exact h
  | cons a2 rest ih =>
    intro dev nl gl a h
    rw [assignDirectGo]
    apply ih
    by_cases heq : a2 = a
    · subst heq
      have hlt : a2 < nl.length := by
        by_contra hge
        rw [getD_default_of_le [] nl a2 (by omega)] at h
        exact h rfl
      rw [getD_set_self [] nl a2 _ hlt]
      simp
    · rw [getD_set_ne [] nl a2 a _ heq]
      exact h

lemma assignDirect_witness (numas : ℕ) (numagroup : List ℕ) (a0 : ℕ)
    (rest : List ℕ) (ha0 : a0 < numas) :
    ((assignDirect numas numagroup (a0 :: rest)).1).getD a0 [] ≠ [] := by
  rw [assignDirect, assignDirectGo]
  apply assignDirectGo_keeps
  rw [getD_set_self [] _ a0 _ (by rw [List.length_replicate]; exact ha0)]
  simp

/-- C6: a NUMA domain with zero directly owned devices first takes the full
device list aggregated at its enclosing group; only when that group list is
empty does it take the device list of the first NUMA domain that currently
holds at least one device (the enumeration-order k search of the loop);
Scenario C: 2 devices both owned by domain 0 of group 0, 4 NUMA domains
with groups [0,0,1,1]; domain 2's group aggregate is empty, and domain 2
ends up with domain 0's device list [0,1]. -/
theorem mpibind_C6 (numagroup : List ℕ) (gs direct : List (List ℕ)) (i : ℕ)
    (hi : i < direct.length) (hempty : direct.getD i [] = []) :
    ((gs.getD (numagroup.getD i 0) [] ≠ [] →
      (fallback numagroup gs direct).getD i [] =
        gs.getD (numagroup.getD i 0) []) ∧
     (gs.getD (numagroup.getD i 0) [] = [] →
      (fallback numagroup gs direct).getD i [] =
        (fallbackUpTo numagroup gs direct i).getD
          (firstWithGpu (fallbackUpTo numagroup gs direct i)) [])) ∧
    fallback [0, 0, 1, 1] [[0, 1], [], [], []] [[0, 1], [], [], []] =
      [[0, 1], [0, 1], [0, 1], [0, 1]] := by
  constructor
  · have hcur : (fallbackUpTo numagroup gs direct i).getD i [] = [] := by
      rw [fallbackUpTo_untouched numagroup gs direct i i (le_refl i)]
      exact hempty
    have hlen : i < (fallbackUpTo numagroup gs direct i).length := by
      rw [fallbackUpTo_length]
      exact hi
    have hfin := fallback_getD_eq_step numagroup gs direct i hi
    constructor
    · intro hgs
      have hgsf : (gs.getD (numagroup.getD i 0) []).isEmpty = false := by
        rcases hval : gs.getD (numagroup.getD i 0) [] with _ | ⟨y, ys⟩
        · exact absurd hval hgs
        · rfl
      rw [hfin, fallbackStep, hcur,
        if_pos (show ([] : List ℕ).isEmpty = true from rfl), hgsf,
        if_neg Bool.false_ne_true, getD_set_self [] _ i _ hlen]
    · intro hgs
      rw [hfin, fallbackStep, hcur,
        if_pos (show ([] : List ℕ).isEmpty = true from rfl), hgs,
        if_pos (show ([] : List ℕ).isEmpty = true from rfl),
        getD_set_self [] _ i _ hlen]
  · decide

/-- Witness for C6 at the Scenario C instance: domain 2 of 4, with both
devices directly owned by domain 0 and group map [0,0,1,1]. -/
theorem mpibind_C6_witness :
    ((([[0, 1], [], [], []] : List (List ℕ)).getD
        (([0, 0, 1, 1] : List ℕ).getD 2 0) [] ≠ [] →
      (fallback [0, 0, 1, 1] [[0, 1], [], [], []] [[0, 1], [], [], []]).getD 2 [] =
        ([[0, 1], [], [], []] : List (List ℕ)).getD
          (([0, 0, 1, 1] : List ℕ).getD 2 0) []) ∧
     (([[0, 1], [], [], []] : List (List ℕ)).getD
        (([0, 0, 1, 1] : List ℕ).getD 2 0) [] = [] →
      (fallback [0, 0, 1, 1] [[0, 1], [], [], []] [[0, 1], [], [], []]).getD 2 [] =
        (fallbackUpTo [0, 0, 1, 1] [[0, 1], [], [], []] [[0, 1], [], [], []] 2).getD
          (firstWithGpu
            (fallbackUpTo [0, 0, 1, 1] [[0, 1], [], [], []] [[0, 1], [], [], []] 2))
          [])) ∧
    fallback [0, 0, 1, 1] [[0, 1], [], [], []] [[0, 1], [], [], []] =
      [[0, 1], [0, 1], [0, 1], [0, 1]] :=
  mpibind_C6 [0, 0, 1, 1] [[0, 1], [], [], []] [[0, 1], [], [], []] 2
    (by decide) (by decide)

/-- C7: if at least one render GPU exists in the topology (phase 1 sees a
non-empty ancestors list whose entries are valid NUMA indices), then after
the fallback loop every NUMA domain holds at least one device. -/
theorem mpibind_C7 (numas : ℕ) (numagroup ancestors : List ℕ)
    (hne : ancestors ≠ []) (hanc : ∀ a ∈ ancestors, a < numas)
    (i : ℕ) (hi : i < numas) :
    1 ≤ ((fallback numagroup (assignDirect numas numagroup ancestors).2
      (assignDirect numas numagroup ancestors).1).getD i []).length := by
  rcases ancestors with _ | ⟨a0, rest⟩
  · exact absurd rfl hne
  have ha0 : a0 < numas := hanc a0 (List.mem_cons_self a0 rest)
  have hwit := assignDirect_witness numas numagroup a0 rest ha0
  have hlen : ((assignDirect numas numagroup (a0 :: rest)).1).length = numas := by
    rw [assignDirect, assignDirectGo_fst_length, List.length_replicate]
  apply List.length_pos.mpr
  rw [fallback, fallbackUpTo]
  apply fallback_foldl_covers
  · intro x hx
    exact List.mem_range.mp hx
  · exact ⟨a0, hwit⟩
  · rw [hlen]
    exact List.mem_range.mpr hi

/-- Witness for C7: 2 devices on NUMA domain 0, 4 NUMA domains, checking
that domain 2 ends up with at least one device. -/
theorem mpibind_C7_witness :
    1 ≤ ((fallback [0, 0, 1, 1] (assignDirect 4 [0, 0, 1, 1] [0, 0]).2
      (assignDirect 4 [0, 0, 1, 1] [0, 0]).1).getD 2 []).length :=
  mpibind_C7 4 [0, 0, 1, 1] [0, 0] (by decide) (by decide) 2 (by decide)
